import Mathlib

/-!
Verification of the poem-frankensteiner reduction-and-lineation pipeline.

Strings are modelled as lists of characters (`List Char`); Python floats as
rationals; the ambient random number generator is made explicit: every random
draw becomes a parameter of the function that consumes it (a uniform draw in
[0,1] becomes a rational `u` with `0 <= u <= 1`, a `random.sample` result
becomes a list argument constrained to be a permutation of a sublist of the
population, `random.randint(3,7)` becomes a stream of naturals carrying the
bound `3 <= n <= 7` in a subtype).
-/

namespace PoemFrank

/-- Python whitespace characters recognised by the regex class backslash-s
and by str.split / str.strip (ASCII fragment): space, tab, newline,
carriage return, vertical tab, form feed. -/
def pyIsSpace (c : Char) : Bool :=
  c = ' ' || c = '\t' || c = '\n' || c = '\r' || c = Char.ofNat 11 || c = Char.ofNat 12

/-- Characters kept by clean_text besides whitespace: lowercase letters, and
digits when the variant keeps them (chop2.2.py and create_broken_sentences.py
keep digits, sentence_breaker_tight.py does not). -/
def allowedChar (keepDigits : Bool) (c : Char) : Bool :=
  ('a' ≤ c && c ≤ 'z') || (keepDigits && ('0' ≤ c && c ≤ '9'))

/-- Scan of the regex substitution collapsing every whitespace run to a
single space: prevSpace records whether the scan is inside a whitespace
run, whose first character was already replaced by one space. -/
def collapseAux (prevSpace : Bool) : List Char → List Char
  | [] => []
  | c :: rest =>
    if pyIsSpace c then
      if prevSpace then collapseAux true rest
      else ' ' :: collapseAux true rest
    else c :: collapseAux false rest

/-- The regex substitution replacing every maximal whitespace run by a
single space character. -/
def collapseWS (l : List Char) : List Char := collapseAux false l

/-- Python str.strip: remove leading and trailing whitespace. -/
def pyStrip (l : List Char) : List Char :=
  ((l.dropWhile pyIsSpace).reverse.dropWhile pyIsSpace).reverse

/-- clean_text from chop2.2.py / create_broken_sentences.py (keepDigits true)
and sentence_breaker_tight.py (keepDigits false): lowercase, delete every
character outside the allowed set, collapse whitespace runs to single
spaces, strip the ends. -/
def clean_text (keepDigits : Bool) (s : List Char) : List Char :=
  pyStrip (collapseWS ((s.map Char.toLower).filter
    (fun c => allowedChar keepDigits c || pyIsSpace c)))

/-- Scan of Python str.split with no separator: cur accumulates the token
being read; a whitespace character closes the current token (empty tokens
are discarded), the end of input flushes a pending token. -/
def splitAux (cur : List Char) : List Char → List (List Char)
  | [] => if cur = [] then [] else cur :: []
  | c :: rest =>
    if pyIsSpace c then
      if cur = [] then splitAux [] rest
      else cur :: splitAux [] rest
    else splitAux (cur ++ (c :: [])) rest

/-- Python str.split with no separator: split on whitespace runs, discarding
empty tokens and leading and trailing whitespace. -/
def splitWords (l : List Char) : List (List Char) := splitAux [] l

/-- Vowel characters for the syllable heuristic: a e i o u y. -/
def isVowel (c : Char) : Bool :=
  c = 'a' || c = 'e' || c = 'i' || c = 'o' || c = 'u' || c = 'y'

/-- An ASCII lowercase letter, the class matched by the regex a-z. -/
def isLowerAZ (c : Char) : Bool := 'a' ≤ c && c ≤ 'z'

/-- Number of maximal contiguous runs of vowel characters, the length of the
findall result for the regex one-or-more-vowels; prevVowel records whether
the previous character was a vowel. -/
def countRunsAux (prevVowel : Bool) : List Char → Nat
  | [] => 0
  | c :: rest =>
    if isVowel c && !prevVowel then 1 + countRunsAux true rest
    else countRunsAux (isVowel c) rest

/-- Number of contiguous vowel runs in a word. -/
def countVowelRuns (l : List Char) : Nat := countRunsAux false l

/-- The silent-e rule of estimate_syllables: when the word ends in e, drop
that e unless the word ends in le with a character before the le that is not
a vowel (the regex not-vowel-le-end applied after the endswith le check). -/
def stripSilentE (w : List Char) : List Char :=
  match w.reverse with
  | e :: l :: c :: _ =>
    if e = 'e' then
      if l = 'l' ∧ isVowel c = false then w else w.dropLast
    else w
  | e :: _ =>
    if e = 'e' then w.dropLast else w
  | [] => w

/-- estimate_syllables from chop2.2.py (identical in
create_broken_sentences.py and sentence_breaker_tight.py): lowercase and
strip the word; 0 when no lowercase letter remains; 1 when at most three
characters remain; otherwise apply the silent-e rule, count vowel runs, and
floor the count at 1. -/
def estimate_syllables (w : List Char) : Nat :=
  let w := pyStrip (w.map Char.toLower)
  if !(w.any isLowerAZ) then 0
  else if w.length ≤ 3 then 1
  else
    let w2 := stripSilentE w
    let count := countVowelRuns w2
    if count = 0 then 1 else count

example : estimate_syllables ('a' :: []) = 1 := by decide
example : estimate_syllables ('t' :: 'h' :: 'e' :: []) = 1 := by decide
example : estimate_syllables ('t' :: 'a' :: 'b' :: 'l' :: 'e' :: []) = 2 := by decide
example : estimate_syllables [] = 0 := by decide
example : estimate_syllables ('1' :: '2' :: '3' :: '4' :: []) = 0 := by decide
example : estimate_syllables ('v' :: 'a' :: 'l' :: 'e' :: []) = 1 := by decide
example : estimate_syllables ('w' :: 'i' :: 'n' :: 'd' :: 'o' :: 'w' :: []) = 2 := by decide

/-- Python int() applied to a float: truncation toward zero; on nonnegative
values this is the floor. -/
def pyInt (q : ℚ) : ℤ := if 0 ≤ q then ⌊q⌋ else -⌊-q⌋

/-- Number of words kept by the samplers of chop2.py, chop2.2.py,
create_broken_sentences.py and sentence_breaker_tight.py: k equals
int(n times f), corrected to 1 when it is 0 and words exist. -/
def sampleSize (n : Nat) (f : ℚ) : ℤ :=
  let k := pyInt ((n : ℚ) * f)
  if k = 0 ∧ 0 < n then 1 else k

/-- Number of words kept by the sampler of chop.py: k equals
int(n times f) with no correction. -/
def sampleSizeChop (n : Nat) (f : ℚ) : ℤ := pyInt ((n : ℚ) * f)

/-- The contract of random.sample words k: a list of k words drawn without
replacement from the population in random order, that is a permutation of a
sublist of the population. -/
def IsSample (population sampled : List (List Char)) (k : Nat) : Prop :=
  sampled.length = k ∧ sampled.Subperm population

/-- Interpolated keep-fraction bounds as computed by
calculate_biased_retention (and inline by the chop2.2.py main block):
normalise the text length between the short reference 1000 and the long
reference 20000, clamp to [0,1], then linearly interpolate each bound
between its short-text and long-text value. -/
def retentionBounds (sMin sMax lMin lMax : ℚ) (textLength : Nat) : ℚ × ℚ :=
  let normalizedLength := ((textLength : ℚ) - 1000) / (20000 - 1000)
  let lengthFactor := max 0 (min 1 normalizedLength)
  (sMin * (1 - lengthFactor) + lMin * lengthFactor,
   sMax * (1 - lengthFactor) + lMax * lengthFactor)

/-- calculate_biased_retention from create_broken_sentences.py, with the
uniform draw made explicit: random.uniform a b is a + u * (b - a) for a
uniform u in [0,1]. Constants of that file: short keep range 0.08 to 0.10,
long keep range 0.01 to 0.02. When a fixed retention is supplied it is
returned directly. -/
def calculate_biased_retention (textLength : Nat) (fixed : Option ℚ) (u : ℚ) : ℚ :=
  match fixed with
  | some r => r
  | none =>
    let b := retentionBounds (8/100) (10/100) (1/100) (2/100) textLength
    b.1 + u * (b.2 - b.1)

/-- Sum of estimated syllables over the words of a line. -/
def sylSum (line : List (List Char)) : Nat :=
  (line.map estimate_syllables).sum

/-- The greedy syllable-budget line packing loop shared by chop2.2.py
(window constantly (1,10): the close condition current > 0 is current >= 1
on naturals), create_broken_sentences.py (window constantly (6,12), the
default arguments) and sentence_breaker_tight.py (a fresh window drawn at
each line close, modelled by the stream win indexed by the number of closed
lines). A word closes the current line when appending it would pass the max
bound and the line has reached the min bound; the final line is flushed
when non-empty. -/
def packLoop (win : Nat → Nat × Nat) (i : Nat) (cur : List (List Char))
    (curSyl : Nat) : List (List Char) → List (List (List Char))
  | [] => if cur = [] then [] else [cur]
  | w :: ws =>
    let s := estimate_syllables w
    if curSyl + s > (win i).2 ∧ (win i).1 ≤ curSyl then
      cur :: packLoop win (i + 1) [w] s ws
    else packLoop win i (cur ++ [w]) (curSyl + s) ws

/-- Packing a sampled word sequence into lines, starting from an empty line. -/
def pack_lines (win : Nat → Nat × Nat) (ws : List (List Char)) :
    List (List (List Char)) :=
  packLoop win 0 [] 0 ws

/-- A line length drawn by random.randint 3 7 in chop.py and chop2.py. -/
def LineLen : Type := {n : Nat // 3 ≤ n ∧ n ≤ 7}

/-- The slicing lineation of chop.py and chop2.py: cut the sampled word
list into consecutive slices whose lengths come from the stream of randint
draws. -/
def sliceLines (lens : Nat → LineLen) (j : Nat) (ws : List (List Char)) :
    List (List (List Char)) :=
  match ws with
  | [] => []
  | w :: rest =>
    ((w :: rest).take (lens j).1) ::
      sliceLines lens (j + 1) ((w :: rest).drop (lens j).1)
termination_by ws.length
decreasing_by
  simp_wf
  have h3 := (lens j).2.1
  simp [List.length_drop]
  omega

/-- Joining the words of one line with single spaces. -/
def joinWords (line : List (List Char)) : List Char :=
  (line.intersperse (' ' :: [])).flatten

/-- Joining rendered lines with newlines. -/
def joinLines (lines : List (List Char)) : List Char :=
  (lines.intersperse ('\n' :: [])).flatten

/-- The early-return message of randomly_reduce_and_lineate_text in
chop2.py for an input with no words. -/
def emptyMsgChop2 : List Char := "(The source file was empty.)".toList

/-- randomly_reduce_and_lineate_text from chop2.py, after the sampling draw:
the guard for an empty word list returns a placeholder message, otherwise
the sampled words (a parameter standing for the random.sample result) are
cut into random-length lines and joined. -/
def randomly_reduce_and_lineate_text2 (text : List Char)
    (sampled : List (List Char)) (lens : Nat → LineLen) : List Char :=
  let words := splitWords text
  if words = [] then emptyMsgChop2
  else joinLines ((sliceLines lens 0 sampled).map joinWords)

/-- create_broken_sentence_text from create_broken_sentences.py, after the
sampling draw: empty word list gives the empty string, otherwise the
sampled words are packed under the constant syllable window (defaults 6 and
12) and the lines joined with newlines. -/
def create_broken_sentence_text (text : List Char) (sampled : List (List Char))
    (minSyllables maxSyllables : Nat) : List Char :=
  let words := splitWords text
  if words = [] then []
  else joinLines ((pack_lines (fun _ => (minSyllables, maxSyllables)) sampled).map joinWords)

/-- The base64 alphabet in order, as used by base64.b64encode. -/
def b64alphabet : List Char :=
  ("ABCDEFGHIJKLMNOPQRSTUVWXYZabcdefghijklmnopqrstuvwxyz0123456789+/").toList

/-- Character for a six-bit value. -/
def b64char (n : Nat) : Char := b64alphabet.getD n '='

/-- Six-bit value of a base64 character, by position in the alphabet. -/
def b64charIndex (c : Char) : Nat := b64alphabet.indexOf c

/-- base64.b64encode on a byte list: emit four alphabet characters per
three bytes, padding the final group of one or two bytes with equals
signs. -/
def b64encode : List Nat → List Char
  | [] => []
  | b1 :: [] =>
    b64char (b1 / 4) :: b64char (b1 % 4 * 16) :: '=' :: '=' :: []
  | b1 :: b2 :: [] =>
    b64char (b1 / 4) :: b64char (b1 % 4 * 16 + b2 / 16) ::
      b64char (b2 % 16 * 4) :: '=' :: []
  | b1 :: b2 :: b3 :: rest =>
    b64char (b1 / 4) :: b64char (b1 % 4 * 16 + b2 / 16) ::
      b64char (b2 % 16 * 4 + b3 / 64) :: b64char (b3 % 64) :: b64encode rest

/-- base64 decoding: invert four characters to three bytes, with the two
padded final forms giving one or two bytes. -/
def b64decode : List Char → List Nat
  | c1 :: c2 :: c3 :: c4 :: rest =>
    if c3 = '=' ∧ c4 = '=' ∧ rest = [] then
      (b64charIndex c1 * 4 + b64charIndex c2 / 16) :: []
    else if c4 = '=' ∧ rest = [] then
      (b64charIndex c1 * 4 + b64charIndex c2 / 16) ::
        (b64charIndex c2 % 16 * 16 + b64charIndex c3 / 4) :: []
    else
      (b64charIndex c1 * 4 + b64charIndex c2 / 16) ::
        (b64charIndex c2 % 16 * 16 + b64charIndex c3 / 4) ::
        (b64charIndex c3 % 4 * 64 + b64charIndex c4) :: b64decode rest
  | _ => []

/-- encrypt_word from sentence_breaker_tight.py: base64-encode the word
(bytes are the ASCII codes of its characters) and truncate the encoding to
the word length plus two when the encoding is longer than the word. -/
def encrypt_word (w : List Char) : List Char :=
  if w = [] then []
  else
    let encoded := b64encode (w.map Char.toNat)
    if encoded.length > w.length then encoded.take (w.length + 2) else encoded

example :
    encrypt_word ('a' :: 'a' :: 'a' :: 'a' :: 'a' :: 'a' :: 'a' :: []) =
      ('Y' :: 'W' :: 'F' :: 'h' :: 'Y' :: 'W' :: 'F' :: 'h' :: 'Y' :: []) := by decide
example :
    encrypt_word ('a' :: 'a' :: 'a' :: 'a' :: 'a' :: 'a' :: 'b' :: []) =
      ('Y' :: 'W' :: 'F' :: 'h' :: 'Y' :: 'W' :: 'F' :: 'h' :: 'Y' :: []) := by decide

section CharFacts

/-- Packing a valid codepoint and reading it back is the identity. -/
theorem toNat_ofNat_valid {m : Nat} (h : m < 55296) : (Char.ofNat m).toNat = m := by
  have hv : m.isValidChar := Or.inl h
  rw [Char.ofNat, dif_pos hv]
  simp [Char.ofNatAux, Char.toNat, UInt32.toNat]

/-- Character order agrees with codepoint order. -/
theorem char_le_iff (a b : Char) : a ≤ b ↔ a.toNat ≤ b.toNat := by
  rw [Char.le_def, UInt32.le_def, BitVec.le_def]
  exact Iff.rfl

/-- Character equality agrees with codepoint equality. -/
theorem char_eq_iff (a b : Char) : a = b ↔ a.toNat = b.toNat := by
  constructor
  · intro h; rw [h]
  · intro h; exact Char.eq_of_val_eq (UInt32.toNat.inj h)

/-- The whitespace class in terms of codepoints. -/
theorem pyIsSpace_iff (c : Char) :
    pyIsSpace c = true ↔
      c.toNat = 32 ∨ c.toNat = 9 ∨ c.toNat = 10 ∨ c.toNat = 13 ∨
        c.toNat = 11 ∨ c.toNat = 12 := by
  simp only [pyIsSpace, Bool.or_eq_true, decide_eq_true_eq]
  rw [char_eq_iff, char_eq_iff, char_eq_iff, char_eq_iff, char_eq_iff, char_eq_iff]
  have h11 : (Char.ofNat 11).toNat = 11 := toNat_ofNat_valid (by omega)
  have h12 : (Char.ofNat 12).toNat = 12 := toNat_ofNat_valid (by omega)
  rw [h11, h12, show (' ').toNat = 32 from rfl, show ('\t').toNat = 9 from rfl,
    show ('\n').toNat = 10 from rfl, show ('\r').toNat = 13 from rfl]
  omega

/-- The lowercase letter class in terms of codepoints. -/
theorem isLowerAZ_iff (c : Char) :
    isLowerAZ c = true ↔ 97 ≤ c.toNat ∧ c.toNat ≤ 122 := by
  simp only [isLowerAZ, Bool.and_eq_true, decide_eq_true_eq]
  rw [char_le_iff, char_le_iff]
  exact Iff.rfl

/-- isAlpha in terms of codepoints. -/
theorem isAlpha_iff (c : Char) :
    c.isAlpha = true ↔
      (65 ≤ c.toNat ∧ c.toNat ≤ 90) ∨ (97 ≤ c.toNat ∧ c.toNat ≤ 122) := by
  simp only [Char.isAlpha, Char.isUpper, Char.isLower, Bool.or_eq_true, Bool.and_eq_true,
    decide_eq_true_eq]
  constructor
  · rintro (⟨h1, h2⟩ | ⟨h1, h2⟩)
    · exact Or.inl ⟨h1, h2⟩
    · exact Or.inr ⟨h1, h2⟩
  · rintro (⟨h1, h2⟩ | ⟨h1, h2⟩)
    · exact Or.inl ⟨h1, h2⟩
    · exact Or.inr ⟨h1, h2⟩

/-- Lowercasing turns letters into lowercase letters and fixes everything
else, so the lowered character is a lowercase letter exactly when the
original was a letter. -/
theorem isLowerAZ_toLower (c : Char) : isLowerAZ c.toLower = c.isAlpha := by
  rw [Char.toLower]
  by_cases h : c.toNat ≥ 65 ∧ c.toNat ≤ 90
  · rw [if_pos h]
    have ht : (Char.ofNat (c.toNat + 32)).toNat = c.toNat + 32 :=
      toNat_ofNat_valid (by omega)
    have h1 : isLowerAZ (Char.ofNat (c.toNat + 32)) = true := by
      rw [isLowerAZ_iff, ht]; omega
    have h2 : c.isAlpha = true := by rw [isAlpha_iff]; omega
    rw [h1, h2]
  · rw [if_neg h]
    by_cases hl : 97 ≤ c.toNat ∧ c.toNat ≤ 122
    · have h1 : isLowerAZ c = true := by rw [isLowerAZ_iff]; omega
      have h2 : c.isAlpha = true := by rw [isAlpha_iff]; omega
      rw [h1, h2]
    · have h1 : isLowerAZ c = false := by
        rw [Bool.eq_false_iff]
        intro hc; rw [isLowerAZ_iff] at hc; omega
      have h2 : c.isAlpha = false := by
        rw [Bool.eq_false_iff]
        intro hc; rw [isAlpha_iff] at hc; omega
      rw [h1, h2]

/-- Lowercasing fixes characters outside the uppercase range, in particular
all characters of the allowed output alphabet of clean_text. -/
theorem toLower_fix (c : Char) (h : ¬ (65 ≤ c.toNat ∧ c.toNat ≤ 90)) :
    c.toLower = c := by
  rw [Char.toLower, if_neg h]

/-- Whitespace characters are not lowercase letters. -/
theorem pyIsSpace_not_isLowerAZ (c : Char) (h : pyIsSpace c = true) :
    isLowerAZ c = false := by
  rw [pyIsSpace_iff] at h
  rw [Bool.eq_false_iff]
  intro hc
  rw [isLowerAZ_iff] at hc
  omega

end CharFacts

section PackerFacts

/-- The packing loop only rearranges the words: concatenating its lines
yields the pending line followed by the remaining input. -/
theorem packLoop_flatten (win : Nat → Nat × Nat) (ws : List (List Char)) :
    ∀ (i : Nat) (cur : List (List Char)) (curSyl : Nat),
      (packLoop win i cur curSyl ws).flatten = cur ++ ws := by
  induction ws with
  | nil =>
    intro i cur curSyl
    by_cases h : cur = []
    · simp [packLoop, h]
    · simp [packLoop, h]
  | cons w ws ih =>
    intro i cur curSyl
    by_cases h : curSyl + estimate_syllables w > (win i).2 ∧ (win i).1 ≤ curSyl
    · simp only [packLoop, if_pos h, List.flatten_cons, ih]
      simp
    · simp only [packLoop, if_neg h, ih]
      simp

/-- The slicing lineation only cuts the list: concatenating the slices
yields the input. -/
theorem sliceLines_flatten_aux (lens : Nat → LineLen) :
    ∀ (n : Nat) (ws : List (List Char)), ws.length ≤ n →
      ∀ (j : Nat), (sliceLines lens j ws).flatten = ws := by
  intro n
  induction n with
  | zero =>
    intro ws hn j
    match ws with
    | [] => simp [sliceLines]
    | w :: rest => simp at hn
  | succ n ih =>
    intro ws hn j
    match ws with
    | [] => simp [sliceLines]
    | w :: rest =>
      rw [sliceLines]
      simp only [List.flatten_cons]
      have hlen : ((w :: rest).drop (lens j).1).length ≤ n := by
        have h3 := (lens j).2.1
        simp only [List.length_drop, List.length_cons] at *
        omega
      rw [ih _ hlen _]
      exact List.take_append_drop _ _

/-- The slicing lineation only cuts the list: concatenating the slices
yields the input. -/
theorem sliceLines_flatten (lens : Nat → LineLen) (ws : List (List Char)) (j : Nat) :
    (sliceLines lens j ws).flatten = ws :=
  sliceLines_flatten_aux lens ws.length ws (le_refl _) j

end PackerFacts

/-- Claim C3: the line packer is word-count preserving: concatenating the
produced lines gives back exactly the sampled input word sequence, hence
the total word count is preserved and the multiset of output words equals
the multiset of input words. This covers every greedy packing variant: any
window stream win instantiates chop2.2.py (constant window (1,10)),
create_broken_sentences.py (constant window (6,12)) and
sentence_breaker_tight.py (freshly drawn windows). -/
theorem pack_lines_word_preserving (win : Nat → Nat × Nat) (ws : List (List Char)) :
    (pack_lines win ws).flatten = ws ∧
    ((pack_lines win ws).map List.length).sum = ws.length ∧
    (pack_lines win ws).flatten.Perm ws := by
  have h : (pack_lines win ws).flatten = ws := by
    rw [pack_lines]
    simpa using packLoop_flatten win ws 0 [] 0
  refine ⟨h, ?_, by rw [h]⟩
  rw [← List.length_flatten, h]

/-- Claim C1, counterexample: the chop.py sampler at one word and retention
one half keeps int(1 * 0.5) = 0 words, not the max(1, floor(n*f)) = 1 words
the claim asserts for every cited sampler. -/
theorem sampler_chop_keeps_zero :
    sampleSizeChop 1 (1/2) = 0 ∧ (0 : ℤ) ≠ max 1 ⌊(1 : ℚ) * (1/2)⌋ := by
  have h : ⌊(1 : ℚ) * (1/2)⌋ = 0 := by
    rw [Int.floor_eq_zero_iff]
    constructor <;> norm_num
  constructor
  · rw [sampleSizeChop, pyInt, if_pos (by norm_num)]
    simpa using h
  · rw [h]
    norm_num

/-- Claim C1, amended: the samplers of chop2.py, chop2.2.py,
create_broken_sentences.py and sentence_breaker_tight.py keep exactly
max(1, floor(n*f)) words on a non-empty word sequence and 0 words on the
empty one; the chop.py sampler has no minimum-one correction and keeps
floor(n*f) words, which is 0 whenever n*f is below 1. -/
theorem sampleSize_spec (f : ℚ) (hf0 : 0 < f) (_hf1 : f ≤ 1) :
    (∀ n : Nat, 0 < n → sampleSize n f = max 1 ⌊(n : ℚ) * f⌋) ∧
    sampleSize 0 f = 0 ∧
    (∀ n : Nat, sampleSizeChop n f = ⌊(n : ℚ) * f⌋) := by
  have hfloor : ∀ n : Nat, pyInt ((n : ℚ) * f) = ⌊(n : ℚ) * f⌋ := by
    intro n
    rw [pyInt, if_pos (mul_nonneg (Nat.cast_nonneg n) (le_of_lt hf0))]
  refine ⟨?_, ?_, fun n => hfloor n⟩
  · intro n hn
    rw [sampleSize]
    simp only [hfloor n]
    by_cases h0 : ⌊(n : ℚ) * f⌋ = 0
    · rw [if_pos ⟨h0, hn⟩, h0]
      norm_num
    · rw [if_neg (by tauto)]
      have hge : 0 ≤ ⌊(n : ℚ) * f⌋ :=
        Int.floor_nonneg.2 (mul_nonneg (Nat.cast_nonneg n) (le_of_lt hf0))
      omega
  · rw [sampleSize]
    simp only [Nat.cast_zero, zero_mul, lt_irrefl, and_false, if_false]
    rw [pyInt, if_pos (le_refl 0)]
    exact Int.floor_zero

/-- Witness instantiating the amended sampler size claim at five words and
retention one third. -/
theorem sampleSize_spec_witness :
    sampleSize 5 (1/3) = max 1 ⌊(5 : ℚ) * (1/3)⌋ ∧
    sampleSize 0 (1/3) = 0 ∧
    sampleSizeChop 2 (1/3) = ⌊(2 : ℚ) * (1/3)⌋ := by
  have h := sampleSize_spec (1/3) (by norm_num) (by norm_num)
  exact ⟨h.1 5 (by norm_num), h.2.1, h.2.2 2⟩

/-- Claim C7, counterexample: a fixed retention of 3/2, although outside
(0,1], is returned by the retention calculator as an ordinary value — no
InvalidConfiguration error exists in the code, the value is silently handed
to the sampler. -/
theorem fixed_retention_not_validated :
    calculate_biased_retention 5000 (some (3/2)) 0 = 3/2 ∧ ¬ ((3/2 : ℚ) ≤ 1) :=
  ⟨rfl, by norm_num⟩

/-- Claim C7, amended: when a fixed retention value is supplied the
retention calculator returns it directly, bypassing all length biasing, for
every value including those outside (0,1]: the calculator performs no range
validation. -/
theorem fixed_retention_returned_directly (textLength : Nat) (r u : ℚ) :
    calculate_biased_retention textLength (some r) u = r := rfl

section Base64Facts

/-- A six-bit value is recovered from its alphabet character. -/
theorem b64charIndex_b64char : ∀ n, n < 64 → b64charIndex (b64char n) = n := by
  decide

/-- Alphabet characters are never the padding character. -/
theorem b64char_ne_pad : ∀ n, n < 64 → b64char n ≠ '=' := by
  decide

end Base64Facts

/-- Claim C9, counterexample: encrypt_word is not injective, so the
original word is not uniquely recoverable from the emitted obfuscated form:
the distinct words aaaaaaa and aaaaaab share the obfuscation YWFhYWFhY
because the truncation to length + 2 characters cuts the base64 encoding
inside the final byte. -/
theorem encrypt_word_not_injective :
    encrypt_word ('a' :: 'a' :: 'a' :: 'a' :: 'a' :: 'a' :: 'a' :: []) =
      encrypt_word ('a' :: 'a' :: 'a' :: 'a' :: 'a' :: 'a' :: 'b' :: []) ∧
    ('a' :: 'a' :: 'a' :: 'a' :: 'a' :: 'a' :: 'a' :: []) ≠
      ('a' :: 'a' :: 'a' :: 'a' :: 'a' :: 'a' :: 'b' :: []) := by
  constructor
  · decide
  · decide

/-- Helper for the roundtrip: decoding the encoding of a byte list, by
strong induction on the length with the four shapes of the byte list. -/
theorem b64decode_b64encode_aux :
    ∀ (n : Nat) (bs : List Nat), bs.length ≤ n → (∀ b ∈ bs, b < 256) →
      b64decode (b64encode bs) = bs := by
  intro n
  induction n with
  | zero =>
    intro bs hn _
    match bs with
    | [] => rfl
    | b :: bs => simp at hn
  | succ n ih =>
    intro bs hn hb
    match bs with
    | [] => rfl
    | b1 :: [] =>
      have h1 : b1 < 256 := hb b1 (by simp)
      rw [b64encode, b64decode]
      rw [if_pos ⟨rfl, rfl, rfl⟩]
      rw [b64charIndex_b64char (b1 / 4) (by omega),
        b64charIndex_b64char (b1 % 4 * 16) (by omega)]
      simp only [List.cons.injEq, and_true]
      omega
    | b1 :: b2 :: [] =>
      have h1 : b1 < 256 := hb b1 (by simp)
      have h2 : b2 < 256 := hb b2 (by simp)
      rw [b64encode, b64decode]
      rw [if_neg (by
        intro hcon
        exact b64char_ne_pad (b2 % 16 * 4) (by omega) hcon.1)]
      rw [if_pos ⟨rfl, rfl⟩]
      rw [b64charIndex_b64char (b1 / 4) (by omega),
        b64charIndex_b64char (b1 % 4 * 16 + b2 / 16) (by omega),
        b64charIndex_b64char (b2 % 16 * 4) (by omega)]
      simp only [List.cons.injEq, and_true]
      omega
    | b1 :: b2 :: b3 :: rest =>
      have h1 : b1 < 256 := hb b1 (by simp)
      have h2 : b2 < 256 := hb b2 (by simp)
      have h3 : b3 < 256 := hb b3 (by simp)
      rw [b64encode, b64decode]
      rw [if_neg (by
        intro hcon
        exact b64char_ne_pad (b2 % 16 * 4 + b3 / 64) (by omega) hcon.1)]
      rw [if_neg (by
        intro hcon
        exact b64char_ne_pad (b3 % 64) (by omega) hcon.1)]
      have hrest : b64decode (b64encode rest) = rest := by
        apply ih rest (by simp at hn; omega)
        intro b hbr
        exact hb b (by simp [hbr])
      rw [hrest,
        b64charIndex_b64char (b1 / 4) (by omega),
        b64charIndex_b64char (b1 % 4 * 16 + b2 / 16) (by omega),
        b64charIndex_b64char (b2 % 16 * 4 + b3 / 64) (by omega),
        b64charIndex_b64char (b3 % 64) (by omega)]
      simp only [List.cons.injEq, and_true]
      refine ⟨by omega, by omega, by omega⟩

/-- Claim C9, amended: the obfuscation applies the reversible base64
encoding — decoding inverts encoding on every byte list — and then
truncates: the emitted obfuscated word is a prefix of the full base64
encoding of the word, and that truncation is what loses injectivity. -/
theorem encrypt_word_base64_reversible :
    (∀ bs : List Nat, (∀ b ∈ bs, b < 256) → b64decode (b64encode bs) = bs) ∧
    (∀ w : List Char, ∃ t, b64encode (w.map Char.toNat) = encrypt_word w ++ t) := by
  constructor
  · intro bs hb
    exact b64decode_b64encode_aux bs.length bs (le_refl _) hb
  · intro w
    by_cases hw : w = []
    · subst hw
      exact ⟨[], rfl⟩
    · rw [encrypt_word, if_neg hw]
      by_cases hl : (b64encode (w.map Char.toNat)).length > w.length
      · rw [if_pos hl]
        exact ⟨(b64encode (w.map Char.toNat)).drop (w.length + 2),
          (List.take_append_drop _ _).symm⟩
      · rw [if_neg hl]
        exact ⟨[], by simp⟩

/-- Witness instantiating the amended obfuscation claim: the bytes of abc
are recovered from their encoding, and the obfuscation of the word a is a
prefix of the base64 encoding of a. -/
theorem encrypt_word_base64_reversible_witness :
    b64decode (b64encode (97 :: 98 :: 99 :: [])) = 97 :: 98 :: 99 :: [] ∧
    ∃ t, b64encode (('a' :: []).map Char.toNat) = encrypt_word ('a' :: []) ++ t :=
  ⟨encrypt_word_base64_reversible.1 (97 :: 98 :: 99 :: []) (by decide),
    encrypt_word_base64_reversible.2 ('a' :: [])⟩

section BudgetFacts

/-- Syllable sum distributes over appending a word. -/
theorem sylSum_append_word (cur : List (List Char)) (w : List Char) :
    sylSum (cur ++ (w :: [])) = sylSum cur + estimate_syllables w := by
  simp [sylSum]

/-- Invariant of the packing loop under a constant window: every emitted
line either fits the max bound or exceeded it through its final word while
the rest of the line was still below the min bound. -/
theorem packLoop_budget (mn mx : Nat) (hmn : 1 ≤ mn) :
    ∀ (ws : List (List Char)) (i : Nat) (cur : List (List Char)) (curSyl : Nat),
      curSyl = sylSum cur →
      (sylSum cur ≤ mx ∨ sylSum cur.dropLast < mn) →
      ∀ l ∈ packLoop (fun _ => (mn, mx)) i cur curSyl ws,
        sylSum l ≤ mx ∨ sylSum l.dropLast < mn := by
  intro ws
  induction ws with
  | nil =>
    intro i cur curSyl _ hinv l hl
    rw [packLoop] at hl
    by_cases h : cur = []
    · rw [if_pos h] at hl
      simp at hl
    · rw [if_neg h] at hl
      simp at hl
      rw [hl]
      exact hinv
  | cons w ws ih =>
    intro i cur curSyl hsyl hinv l hl
    rw [packLoop] at hl
    by_cases h : curSyl + estimate_syllables w > mx ∧ mn ≤ curSyl
    · rw [if_pos h] at hl
      rcases List.mem_cons.1 hl with hcur | hrec
      · rw [hcur]
        exact hinv
      · exact ih (i + 1) (w :: []) (estimate_syllables w) (by simp [sylSum])
          (Or.inr (by simp [sylSum]; omega)) l hrec
    · rw [if_neg h] at hl
      push_neg at h
      by_cases hfit : curSyl + estimate_syllables w ≤ mx
      · exact ih i (cur ++ (w :: [])) (curSyl + estimate_syllables w)
          (by rw [sylSum_append_word, hsyl]) (Or.inl (by rw [sylSum_append_word]; omega)) l hl
      · have hlow : curSyl < mn := h (by omega)
        exact ih i (cur ++ (w :: [])) (curSyl + estimate_syllables w)
          (by rw [sylSum_append_word, hsyl])
          (Or.inr (by rw [List.dropLast_concat]; omega)) l hl

end BudgetFacts

/-- Claim C2, counterexample: under the windowed budget of
create_broken_sentence_text (min 6, max 12) the words of, of, of, of, of,
rararararararara pack into a single line of six words whose cumulative
syllable estimate is 13, exceeding the max budget 12, although no single
word exceeds the budget by itself: the claim that only single-word lines
may overflow is false. -/
theorem pack_lines_budget_counterexample :
    pack_lines (fun _ => (6, 12))
        (('o' :: 'f' :: []) :: ('o' :: 'f' :: []) :: ('o' :: 'f' :: []) ::
          ('o' :: 'f' :: []) :: ('o' :: 'f' :: []) ::
          ('r' :: 'a' :: 'r' :: 'a' :: 'r' :: 'a' :: 'r' :: 'a' :: 'r' :: 'a' ::
            'r' :: 'a' :: 'r' :: 'a' :: 'r' :: 'a' :: []) :: []) =
      ((('o' :: 'f' :: []) :: ('o' :: 'f' :: []) :: ('o' :: 'f' :: []) ::
          ('o' :: 'f' :: []) :: ('o' :: 'f' :: []) ::
          ('r' :: 'a' :: 'r' :: 'a' :: 'r' :: 'a' :: 'r' :: 'a' :: 'r' :: 'a' ::
            'r' :: 'a' :: 'r' :: 'a' :: 'r' :: 'a' :: []) :: []) :: []) ∧
    sylSum
        (('o' :: 'f' :: []) :: ('o' :: 'f' :: []) :: ('o' :: 'f' :: []) ::
          ('o' :: 'f' :: []) :: ('o' :: 'f' :: []) ::
          ('r' :: 'a' :: 'r' :: 'a' :: 'r' :: 'a' :: 'r' :: 'a' :: 'r' :: 'a' ::
            'r' :: 'a' :: 'r' :: 'a' :: 'r' :: 'a' :: []) :: []) = 13 ∧
    (∀ w ∈ (('o' :: 'f' :: []) :: ('o' :: 'f' :: []) :: ('o' :: 'f' :: []) ::
          ('o' :: 'f' :: []) :: ('o' :: 'f' :: []) ::
          ('r' :: 'a' :: 'r' :: 'a' :: 'r' :: 'a' :: 'r' :: 'a' :: 'r' :: 'a' ::
            'r' :: 'a' :: 'r' :: 'a' :: 'r' :: 'a' :: []) :: []),
      estimate_syllables w ≤ 12) := by
  refine ⟨by decide, by decide, by decide⟩

/-- Claim C2, amended: under a constant syllable window with min at least 1
(chop2.2.py uses (1,10), create_broken_sentence_text defaults to (6,12)),
every produced line has cumulative syllables at most the max budget UNLESS
the syllable total of the line without its final word is still below the
min bound — the final word then overflows the line; with min 1 such an
overflowing line is a single word with positive syllables, but with a
larger min it may contain several words. Overflowing words are still
emitted, never dropped. -/
theorem pack_lines_budget (mn mx : Nat) (hmn : 1 ≤ mn) (ws : List (List Char)) :
    ∀ l ∈ pack_lines (fun _ => (mn, mx)) ws,
      sylSum l ≤ mx ∨ sylSum l.dropLast < mn := by
  intro l hl
  exact packLoop_budget mn mx hmn ws 0 [] 0 (by simp [sylSum])
    (Or.inl (by simp [sylSum])) l hl

/-- Witness instantiating the amended budget claim at the window (6,12)
and a single two-letter word. -/
theorem pack_lines_budget_witness :
    sylSum (('o' :: 'f' :: []) :: []) ≤ 12 ∨
      sylSum (('o' :: 'f' :: []) :: []).dropLast < 6 :=
  pack_lines_budget 6 12 (by norm_num) (('o' :: 'f' :: []) :: [])
    (('o' :: 'f' :: []) :: []) (by decide)

section NonEmptyFacts

/-- A line of nonzero syllable sum has at least one word. -/
theorem ne_nil_of_sylSum_pos (cur : List (List Char)) (h : 1 ≤ sylSum cur) :
    cur ≠ [] := by
  intro hc
  rw [hc] at h
  simp [sylSum] at h

/-- Every line emitted by the packing loop is non-empty, provided every
window min bound is at least 1: a line is only closed once its syllable sum
reached the min bound, and the trailing line is only flushed when
non-empty. -/
theorem packLoop_lines_nonempty (win : Nat → Nat × Nat) (hwin : ∀ i, 1 ≤ (win i).1) :
    ∀ (ws : List (List Char)) (i : Nat) (cur : List (List Char)) (curSyl : Nat),
      curSyl = sylSum cur →
      ∀ l ∈ packLoop win i cur curSyl ws, l ≠ [] := by
  intro ws
  induction ws with
  | nil =>
    intro i cur curSyl _ l hl
    rw [packLoop] at hl
    by_cases h : cur = []
    · rw [if_pos h] at hl
      simp at hl
    · rw [if_neg h] at hl
      simp at hl
      rw [hl]
      exact h
  | cons w ws ih =>
    intro i cur curSyl hsyl l hl
    rw [packLoop] at hl
    by_cases h : curSyl + estimate_syllables w > (win i).2 ∧ (win i).1 ≤ curSyl
    · rw [if_pos h] at hl
      rcases List.mem_cons.1 hl with hcur | hrec
      · rw [hcur]
        exact ne_nil_of_sylSum_pos cur (by have := hwin i; omega)
      · exact ih (i + 1) (w :: []) (estimate_syllables w) (by simp [sylSum]) l hrec
    · rw [if_neg h] at hl
      exact ih i (cur ++ (w :: [])) (curSyl + estimate_syllables w)
        (by rw [sylSum_append_word, hsyl]) l hl

/-- Every slice produced by the slicing lineation is non-empty, because a
drawn line length is at least 3 and a slice is only taken from a non-empty
remainder. -/
theorem sliceLines_lines_nonempty (lens : Nat → LineLen) :
    ∀ (n : Nat) (ws : List (List Char)), ws.length ≤ n →
      ∀ (j : Nat), ∀ l ∈ sliceLines lens j ws, l ≠ [] := by
  intro n
  induction n with
  | zero =>
    intro ws hn j l hl
    match ws with
    | [] => simp [sliceLines] at hl
    | w :: rest => simp at hn
  | succ n ih =>
    intro ws hn j l hl
    match ws with
    | [] => simp [sliceLines] at hl
    | w :: rest =>
      rw [sliceLines] at hl
      rcases List.mem_cons.1 hl with htake | hrec
      · have h3 := (lens j).2.1
        have hlen : 1 ≤ l.length := by
          rw [htake, List.length_take]
          simp only [List.length_cons]
          omega
        intro hc
        rw [hc] at hlen
        simp at hlen
      · have hdrop : ((w :: rest).drop (lens j).1).length ≤ n := by
          have h3 := (lens j).2.1
          simp only [List.length_drop, List.length_cons] at *
          omega
        exact ih _ hdrop _ l hrec

/-- Joining a non-empty line of non-empty words with spaces gives a
non-empty string. -/
theorem joinWords_ne_nil (l : List (List Char)) (hne : l ≠ [])
    (hw : ∀ w ∈ l, w ≠ []) : joinWords l ≠ [] := by
  match l with
  | [] => exact absurd rfl hne
  | a :: t =>
    have ha : a ≠ [] := hw a (by simp)
    match t with
    | [] =>
      rw [joinWords]
      simpa using ha
    | b :: t2 =>
      rw [joinWords, List.intersperse_cons_cons]
      simp only [List.flatten_cons, ne_eq, List.append_eq_nil]
      intro hc
      exact ha hc.1

end NonEmptyFacts

/-- Claim C10: every line emitted by the line packer, in every variant —
the greedy syllable packers of chop2.2.py (window (1,10)),
create_broken_sentences.py (window (6,12)) and sentence_breaker_tight.py
(any window stream with min at least 1), and the fixed-range slicing of
chop.py and chop2.py — contains at least one word; and when the input
words are non-empty tokens (as produced by splitWords) each rendered line
is a non-empty string, so the newline-joined output has no empty line. -/
theorem all_lines_nonempty (win : Nat → Nat × Nat) (hwin : ∀ i, 1 ≤ (win i).1)
    (lens : Nat → LineLen) (ws : List (List Char)) (hws : ∀ w ∈ ws, w ≠ []) :
    (∀ l ∈ pack_lines win ws, l ≠ []) ∧
    (∀ l ∈ sliceLines lens 0 ws, l ≠ []) ∧
    (∀ l ∈ pack_lines win ws, joinWords l ≠ []) ∧
    (∀ l ∈ sliceLines lens 0 ws, joinWords l ≠ []) := by
  have hpack : ∀ l ∈ pack_lines win ws, l ≠ [] := by
    intro l hl
    exact packLoop_lines_nonempty win hwin ws 0 [] 0 (by simp [sylSum]) l hl
  have hslice : ∀ l ∈ sliceLines lens 0 ws, l ≠ [] :=
    fun l hl => sliceLines_lines_nonempty lens ws.length ws (le_refl _) 0 l hl
  have hpackw : ∀ l ∈ pack_lines win ws, ∀ w ∈ l, w ≠ [] := by
    intro l hl w hwl
    apply hws
    have hflat : (pack_lines win ws).flatten = ws := by
      rw [pack_lines]
      simpa using packLoop_flatten win ws 0 [] 0
    rw [← hflat]
    exact List.mem_flatten.2 ⟨l, hl, hwl⟩
  have hslicew : ∀ l ∈ sliceLines lens 0 ws, ∀ w ∈ l, w ≠ [] := by
    intro l hl w hwl
    apply hws
    rw [← sliceLines_flatten lens ws 0]
    exact List.mem_flatten.2 ⟨l, hl, hwl⟩
  exact ⟨hpack, hslice,
    fun l hl => joinWords_ne_nil l (hpack l hl) (hpackw l hl),
    fun l hl => joinWords_ne_nil l (hslice l hl) (hslicew l hl)⟩

/-- Witness instantiating the non-empty line claim at one two-letter word,
the chop2.2.py window and constant line length 3. -/
theorem all_lines_nonempty_witness :
    (('h' :: 'i' :: []) :: []) ≠ ([] : List (List Char)) ∧
    joinWords (('h' :: 'i' :: []) :: []) ≠ [] := by
  have h := all_lines_nonempty (fun _ => (1, 10)) (fun _ => le_refl 1)
    (fun _ => ⟨3, by norm_num⟩) (('h' :: 'i' :: []) :: []) (by decide)
  exact ⟨h.1 (('h' :: 'i' :: []) :: []) (by decide),
    h.2.2.1 (('h' :: 'i' :: []) :: []) (by decide)⟩

/-- Claim C6, counterexample: on the empty input string the chop2.py
pipeline does not return an empty output string: it returns the fixed
placeholder message, a non-empty string. -/
theorem empty_input_chop2_not_empty :
    randomly_reduce_and_lineate_text2 [] []
      (fun _ => ⟨3, by norm_num⟩) ≠ [] := by
  decide

/-- Claim C6, amended: on an input with no words after normalization the
pipeline completes and returns deterministically, regardless of every
random parameter: the normalizer maps the empty string to the empty
string, the sample size is 0, and create_broken_sentence_text returns the
empty string — while randomly_reduce_and_lineate_text of chop2.py returns
the fixed placeholder message instead of an empty string. No step can fail
on emptiness. -/
theorem empty_input_pipeline (text : List Char) (h : splitWords text = [])
    (keepDigits : Bool) (sampled : List (List Char)) (lens : Nat → LineLen)
    (mn mx : Nat) (f : ℚ) :
    clean_text keepDigits [] = [] ∧
    splitWords ([] : List Char) = [] ∧
    sampleSize 0 f = 0 ∧
    create_broken_sentence_text text sampled mn mx = [] ∧
    randomly_reduce_and_lineate_text2 text sampled lens = emptyMsgChop2 := by
  refine ⟨rfl, rfl, ?_, ?_, ?_⟩
  · rw [sampleSize]
    simp only [Nat.cast_zero, zero_mul, lt_irrefl, and_false, if_false]
    rw [pyInt, if_pos (le_refl 0)]
    exact Int.floor_zero
  · rw [create_broken_sentence_text]
    simp [h]
  · rw [randomly_reduce_and_lineate_text2]
    simp [h]

/-- Witness instantiating the empty-input claim at the empty string. -/
theorem empty_input_pipeline_witness :
    clean_text true [] = [] ∧
    splitWords ([] : List Char) = [] ∧
    sampleSize 0 (1/2) = 0 ∧
    create_broken_sentence_text [] [] 6 12 = [] ∧
    randomly_reduce_and_lineate_text2 [] [] (fun _ => ⟨3, by norm_num⟩) = emptyMsgChop2 :=
  empty_input_pipeline [] rfl true [] (fun _ => ⟨3, by norm_num⟩) 6 12 (1/2)

section RetentionFacts

/-- The clamped length factor of the retention bounds. -/
def tRB (L : Nat) : ℚ := max 0 (min 1 (((L : ℚ) - 1000) / (20000 - 1000)))

/-- Closed form of the retention bounds in terms of the clamped factor. -/
theorem retentionBounds_eq (sMin sMax lMin lMax : ℚ) (L : Nat) :
    retentionBounds sMin sMax lMin lMax L =
      (sMin * (1 - tRB L) + lMin * tRB L,
       sMax * (1 - tRB L) + lMax * tRB L) := rfl

/-- Closed form of the biased retention draw. -/
theorem calculate_biased_retention_eq (L : Nat) (u : ℚ) :
    calculate_biased_retention L none u =
      (retentionBounds (8/100) (10/100) (1/100) (2/100) L).1 +
        u * ((retentionBounds (8/100) (10/100) (1/100) (2/100) L).2 -
          (retentionBounds (8/100) (10/100) (1/100) (2/100) L).1) := rfl

/-- The clamped factor lies in [0,1]. -/
theorem tRB_mem (L : Nat) : 0 ≤ tRB L ∧ tRB L ≤ 1 := by
  constructor
  · exact le_max_left 0 _
  · apply max_le
    · norm_num
    · exact min_le_left 1 _

/-- The clamped factor is monotone in the text length. -/
theorem tRB_mono (L1 L2 : Nat) (h : L1 ≤ L2) : tRB L1 ≤ tRB L2 := by
  apply max_le_max (le_refl 0)
  apply min_le_min (le_refl 1)
  apply div_le_div_of_nonneg_right ?_ (by norm_num)
  have : (L1 : ℚ) ≤ (L2 : ℚ) := by exact_mod_cast h
  linarith

/-- Below the short threshold the clamped factor is 0. -/
theorem tRB_short (L : Nat) (h : L ≤ 1000) : tRB L = 0 := by
  have hL : (L : ℚ) ≤ 1000 := by exact_mod_cast h
  have hx : ((L : ℚ) - 1000) / (20000 - 1000) ≤ 0 := by
    rw [div_le_iff₀ (by norm_num)]
    linarith
  rw [tRB, min_eq_right (by linarith), max_eq_left hx]

/-- Above the long threshold the clamped factor is 1. -/
theorem tRB_long (L : Nat) (h : 20000 ≤ L) : tRB L = 1 := by
  have hL : (20000 : ℚ) ≤ (L : ℚ) := by exact_mod_cast h
  have hx : (1 : ℚ) ≤ ((L : ℚ) - 1000) / (20000 - 1000) := by
    rw [le_div_iff₀ (by norm_num)]
    linarith
  rw [tRB, min_eq_left hx, max_eq_right (by norm_num)]

end RetentionFacts

/-- Claim C5: the retention fraction drawn by the retention calculator with
no fixed value lies within the interpolated keep bounds for the given text
length; both bounds move monotonically from the short-text values toward
the long-text values as the length grows (decreasing here, since the
long-text constants are lower), and are constant once the length is
clamped at either threshold. -/
theorem retention_bounds_spec :
    (∀ (L : Nat) (u : ℚ), 0 ≤ u → u ≤ 1 →
      (retentionBounds (8/100) (10/100) (1/100) (2/100) L).1 ≤
          calculate_biased_retention L none u ∧
        calculate_biased_retention L none u ≤
          (retentionBounds (8/100) (10/100) (1/100) (2/100) L).2) ∧
    (∀ sMin sMax lMin lMax : ℚ, lMin ≤ sMin → lMax ≤ sMax →
      ∀ L1 L2 : Nat, L1 ≤ L2 →
        (retentionBounds sMin sMax lMin lMax L2).1 ≤
            (retentionBounds sMin sMax lMin lMax L1).1 ∧
          (retentionBounds sMin sMax lMin lMax L2).2 ≤
            (retentionBounds sMin sMax lMin lMax L1).2) ∧
    (∀ (sMin sMax lMin lMax : ℚ) (L : Nat), L ≤ 1000 →
      retentionBounds sMin sMax lMin lMax L = (sMin, sMax)) ∧
    (∀ (sMin sMax lMin lMax : ℚ) (L : Nat), 20000 ≤ L →
      retentionBounds sMin sMax lMin lMax L = (lMin, lMax)) := by
  refine ⟨?_, ?_, ?_, ?_⟩
  · intro L u hu0 hu1
    rw [calculate_biased_retention_eq, retentionBounds_eq]
    obtain ⟨ht0, ht1⟩ := tRB_mem L
    set t := tRB L
    simp only
    have hd : (0 : ℚ) ≤
        ((10/100) * (1 - t) + (2/100) * t) - ((8/100) * (1 - t) + (1/100) * t) := by
      ring_nf
      linarith
    constructor
    · nlinarith [mul_nonneg hu0 hd]
    · nlinarith [mul_nonneg (sub_nonneg.2 hu1) hd]
  · intro sMin sMax lMin lMax hmin hmax L1 L2 hL
    rw [retentionBounds_eq, retentionBounds_eq]
    obtain ⟨h10, h11⟩ := tRB_mem L1
    obtain ⟨h20, h21⟩ := tRB_mem L2
    have ht := tRB_mono L1 L2 hL
    constructor
    · simp only
      nlinarith [mul_nonneg (sub_nonneg.2 ht) (sub_nonneg.2 hmin)]
    · simp only
      nlinarith [mul_nonneg (sub_nonneg.2 ht) (sub_nonneg.2 hmax)]
  · intro sMin sMax lMin lMax L h
    rw [retentionBounds_eq, tRB_short L h]
    simp only [Prod.mk.injEq]
    constructor <;> ring
  · intro sMin sMax lMin lMax L h
    rw [retentionBounds_eq, tRB_long L h]
    simp only [Prod.mk.injEq]
    constructor <;> ring

/-- Witness instantiating the retention bounds claim at text length 5000,
uniform draw one half, and the short and long clamping regimes. -/
theorem retention_bounds_spec_witness :
    ((retentionBounds (8/100) (10/100) (1/100) (2/100) 5000).1 ≤
        calculate_biased_retention 5000 none (1/2) ∧
      calculate_biased_retention 5000 none (1/2) ≤
        (retentionBounds (8/100) (10/100) (1/100) (2/100) 5000).2) ∧
    ((retentionBounds (8/100) (10/100) (1/100) (2/100) 2000).1 ≤
        (retentionBounds (8/100) (10/100) (1/100) (2/100) 1500).1 ∧
      (retentionBounds (8/100) (10/100) (1/100) (2/100) 2000).2 ≤
        (retentionBounds (8/100) (10/100) (1/100) (2/100) 1500).2) ∧
    retentionBounds (8/100) (10/100) (1/100) (2/100) 500 = (8/100, 10/100) ∧
    retentionBounds (8/100) (10/100) (1/100) (2/100) 30000 = (1/100, 2/100) := by
  refine ⟨retention_bounds_spec.1 5000 (1/2) (by norm_num) (by norm_num),
    retention_bounds_spec.2.1 (8/100) (10/100) (1/100) (2/100)
      (by norm_num) (by norm_num) 1500 2000 (by norm_num),
    retention_bounds_spec.2.2.1 (8/100) (10/100) (1/100) (2/100) 500 (by norm_num),
    retention_bounds_spec.2.2.2 (8/100) (10/100) (1/100) (2/100) 30000 (by norm_num)⟩

section SyllableFacts

/-- Dropping leading whitespace does not change whether a lowercase letter
is present. -/
theorem any_isLowerAZ_dropWhile (l : List Char) :
    (l.dropWhile pyIsSpace).any isLowerAZ = l.any isLowerAZ := by
  induction l with
  | nil => rfl
  | cons c rest ih =>
    by_cases h : pyIsSpace c = true
    · rw [List.dropWhile_cons_of_pos h, ih, List.any_cons,
        pyIsSpace_not_isLowerAZ c h]
      simp
    · rw [List.dropWhile_cons_of_neg (by simpa using h)]

/-- Stripping does not change whether a lowercase letter is present. -/
theorem any_isLowerAZ_pyStrip (l : List Char) :
    (pyStrip l).any isLowerAZ = l.any isLowerAZ := by
  rw [pyStrip, List.any_reverse, any_isLowerAZ_dropWhile, List.any_reverse,
    any_isLowerAZ_dropWhile]

/-- Lowercasing a word keeps a lowercase letter exactly where the original
had any letter. -/
theorem any_isLowerAZ_map_toLower (w : List Char) :
    (w.map Char.toLower).any isLowerAZ = w.any Char.isAlpha := by
  induction w with
  | nil => rfl
  | cons c rest ih => simp [List.any_cons, ih, isLowerAZ_toLower c]

/-- Stripping never lengthens a word. -/
theorem length_pyStrip_le (l : List Char) : (pyStrip l).length ≤ l.length := by
  rw [pyStrip, List.length_reverse]
  calc ((l.dropWhile pyIsSpace).reverse.dropWhile pyIsSpace).length
      ≤ (l.dropWhile pyIsSpace).reverse.length :=
        (List.dropWhile_sublist _).length_le
    _ = (l.dropWhile pyIsSpace).length := List.length_reverse _
    _ ≤ l.length := (List.dropWhile_sublist _).length_le

end SyllableFacts

/-- Claim C4: estimate_syllables returns 0 on the empty string and on any
token without a letter; returns 1 on any word of at most three characters
containing a letter; returns at least 1 on any word containing a letter
(the floor of the vowel-run count); on the concrete words a, the, table it
returns 1, 1, 2; and the silent-e rule keeps the final e exactly when the
word ends in le preceded by a non-vowel (so table keeps its e), and strips
it when the character before le is a vowel. -/
theorem estimate_syllables_spec :
    estimate_syllables [] = 0 ∧
    (∀ w : List Char, w.any Char.isAlpha = false → estimate_syllables w = 0) ∧
    (∀ w : List Char, w.any Char.isAlpha = true → w.length ≤ 3 →
      estimate_syllables w = 1) ∧
    (∀ w : List Char, w.any Char.isAlpha = true → 1 ≤ estimate_syllables w) ∧
    estimate_syllables ('a' :: []) = 1 ∧
    estimate_syllables ('t' :: 'h' :: 'e' :: []) = 1 ∧
    estimate_syllables ('t' :: 'a' :: 'b' :: 'l' :: 'e' :: []) = 2 ∧
    (∀ (w : List Char) (c : Char), isVowel c = false →
      stripSilentE (w ++ (c :: 'l' :: 'e' :: [])) = w ++ (c :: 'l' :: 'e' :: [])) ∧
    (∀ (w : List Char) (c : Char), isVowel c = true →
      stripSilentE (w ++ (c :: 'l' :: 'e' :: [])) = w ++ (c :: 'l' :: [])) := by
  have hany : ∀ w : List Char,
      (pyStrip (w.map Char.toLower)).any isLowerAZ = w.any Char.isAlpha := by
    intro w
    rw [any_isLowerAZ_pyStrip, any_isLowerAZ_map_toLower]
  refine ⟨rfl, ?_, ?_, ?_, by decide, by decide, by decide, ?_, ?_⟩
  · intro w hw
    rw [estimate_syllables]
    simp only [hany w, hw]
    rfl
  · intro w hw hlen
    rw [estimate_syllables]
    simp only [hany w, hw]
    have hl : (pyStrip (w.map Char.toLower)).length ≤ 3 :=
      le_trans (length_pyStrip_le _) (by rw [List.length_map]; exact hlen)
    simp [hl]
  · intro w hw
    rw [estimate_syllables]
    simp only [hany w, hw]
    by_cases hl : (pyStrip (w.map Char.toLower)).length ≤ 3
    · simp [hl]
    · simp only [Bool.not_true, Bool.false_eq_true, if_false, hl, if_neg hl]
      by_cases hc : countVowelRuns (stripSilentE (pyStrip (w.map Char.toLower))) = 0
      · simp [hc]
      · simp [hc]
        omega
  · intro w c hc
    have hrev : (w ++ (c :: 'l' :: 'e' :: [])).reverse =
        'e' :: 'l' :: c :: w.reverse := by
      simp
    rw [stripSilentE, hrev]
    simp [hc]
  · intro w c hc
    have hrev : (w ++ (c :: 'l' :: 'e' :: [])).reverse =
        'e' :: 'l' :: c :: w.reverse := by
      simp
    have hdrop : (w ++ (c :: 'l' :: 'e' :: [])).dropLast = w ++ (c :: 'l' :: []) := by
      rw [show w ++ (c :: 'l' :: 'e' :: []) = (w ++ (c :: 'l' :: [])) ++ ('e' :: []) by simp,
        List.dropLast_concat]
    rw [stripSilentE, hrev]
    simp [hc, hdrop]

/-- Witness instantiating the syllable estimator claim at concrete words:
a digit-only token, a short word, a vowelless word, and words ending in le
after a consonant and after a vowel. -/
theorem estimate_syllables_spec_witness :
    estimate_syllables ('7' :: '7' :: '7' :: '7' :: []) = 0 ∧
    estimate_syllables ('t' :: 'o' :: []) = 1 ∧
    1 ≤ estimate_syllables ('r' :: 'h' :: 'y' :: 't' :: 'h' :: 'm' :: []) ∧
    stripSilentE ('t' :: 'a' :: 'b' :: 'l' :: 'e' :: []) =
      ('t' :: 'a' :: 'b' :: 'l' :: 'e' :: []) ∧
    stripSilentE ('v' :: 'a' :: 'l' :: 'e' :: []) = ('v' :: 'a' :: 'l' :: []) := by
  refine ⟨estimate_syllables_spec.2.1 _ (by decide),
    estimate_syllables_spec.2.2.1 _ (by decide) (by decide),
    estimate_syllables_spec.2.2.2.1 _ (by decide),
    ?_, ?_⟩
  · have h := estimate_syllables_spec.2.2.2.2.2.2.2.1
      ('t' :: 'a' :: []) 'b' (by decide)
    simpa using h
  · have h := estimate_syllables_spec.2.2.2.2.2.2.2.2
      ('v' :: []) 'a' (by decide)
    simpa using h

section CleanTextFacts

/-- The allowed output alphabet of clean_text in terms of codepoints. -/
theorem allowedChar_iff (keepDigits : Bool) (c : Char) :
    allowedChar keepDigits c = true ↔
      (97 ≤ c.toNat ∧ c.toNat ≤ 122) ∨
        (keepDigits = true ∧ 48 ≤ c.toNat ∧ c.toNat ≤ 57) := by
  simp only [allowedChar, Bool.or_eq_true, Bool.and_eq_true, decide_eq_true_eq]
  rw [char_le_iff, char_le_iff, char_le_iff, char_le_iff]
  constructor
  · rintro (⟨h1, h2⟩ | ⟨hk, h1, h2⟩)
    · exact Or.inl ⟨h1, h2⟩
    · exact Or.inr ⟨hk, h1, h2⟩
  · rintro (⟨h1, h2⟩ | ⟨hk, h1, h2⟩)
    · exact Or.inl ⟨h1, h2⟩
    · exact Or.inr ⟨hk, h1, h2⟩

/-- Every character of the collapsed string is either the space it
substituted for a whitespace run or a non-whitespace character of the
input. -/
theorem mem_collapseAux :
    ∀ (l : List Char) (prev : Bool) (c : Char), c ∈ collapseAux prev l →
      c = ' ' ∨ (c ∈ l ∧ pyIsSpace c = false) := by
  intro l
  induction l with
  | nil =>
    intro prev c hc
    simp [collapseAux] at hc
  | cons d rest ih =>
    intro prev c hc
    rw [collapseAux] at hc
    by_cases hd : pyIsSpace d = true
    · rw [if_pos hd] at hc
      by_cases hp : prev = true
      · rw [if_pos hp] at hc
        rcases ih true c hc with h | ⟨hm, hs⟩
        · exact Or.inl h
        · exact Or.inr ⟨List.mem_cons_of_mem d hm, hs⟩
      · rw [if_neg hp] at hc
        rcases List.mem_cons.1 hc with h | hrec
        · exact Or.inl h
        · rcases ih true c hrec with h | ⟨hm, hs⟩
          · exact Or.inl h
          · exact Or.inr ⟨List.mem_cons_of_mem d hm, hs⟩
    · rw [if_neg hd] at hc
      rcases List.mem_cons.1 hc with h | hrec
      · exact Or.inr ⟨h ▸ List.mem_cons_self d rest, h ▸ (by simpa using hd)⟩
      · rcases ih false c hrec with h | ⟨hm, hs⟩
        · exact Or.inl h
        · exact Or.inr ⟨List.mem_cons_of_mem d hm, hs⟩

/-- Inside a whitespace run the collapse scan emits nothing until the next
non-whitespace character, so its output never starts with whitespace. -/
theorem collapseAux_true_head :
    ∀ (l : List Char) (c : Char),
      (collapseAux true l).head? = some c → pyIsSpace c = false := by
  intro l
  induction l with
  | nil =>
    intro c hc
    simp [collapseAux] at hc
  | cons d rest ih =>
    intro c hc
    rw [collapseAux] at hc
    by_cases hd : pyIsSpace d = true
    · rw [if_pos hd, if_pos rfl] at hc
      exact ih c hc
    · rw [if_neg hd] at hc
      simp only [List.head?_cons, Option.some.injEq] at hc
      rw [← hc]
      simpa using hd

/-- The collapsed string never contains two consecutive spaces. -/
theorem chain_collapseAux :
    ∀ (l : List Char) (prev : Bool),
      List.Chain' (fun a b => ¬(a = ' ' ∧ b = ' ')) (collapseAux prev l) := by
  intro l
  induction l with
  | nil =>
    intro prev
    simp [collapseAux]
  | cons d rest ih =>
    intro prev
    rw [collapseAux]
    by_cases hd : pyIsSpace d = true
    · rw [if_pos hd]
      by_cases hp : prev = true
      · rw [if_pos hp]
        exact ih true
      · rw [if_neg hp]
        rw [List.chain'_cons']
        refine ⟨?_, ih true⟩
        intro y hy hcon
        have hns := collapseAux_true_head rest y hy
        rw [hcon.2] at hns
        simp [pyIsSpace] at hns
    · rw [if_neg hd]
      rw [List.chain'_cons']
      refine ⟨?_, ih false⟩
      intro y _ hcon
      rw [hcon.1] at hd
      simp [pyIsSpace] at hd

/-- When the input does not start with whitespace the run flag makes no
difference to the collapse scan. -/
theorem collapseAux_true_eq_false (l : List Char)
    (h : ∀ c, l.head? = some c → pyIsSpace c = false) :
    collapseAux true l = collapseAux false l := by
  match l with
  | [] => rfl
  | d :: rest =>
    have hd : pyIsSpace d = false := h d rfl
    rw [collapseAux, collapseAux, if_neg (by simp [hd]), if_neg (by simp [hd])]

/-- Collapsing is the identity on a string whose whitespace characters are
all single spaces with no two adjacent. -/
theorem collapseAux_eq_self :
    ∀ (l : List Char),
      (∀ c ∈ l, pyIsSpace c = true → c = ' ') →
      List.Chain' (fun a b => ¬(a = ' ' ∧ b = ' ')) l →
      collapseAux false l = l := by
  intro l
  induction l with
  | nil =>
    intro _ _
    rfl
  | cons d rest ih =>
    intro hcs hch
    rw [collapseAux]
    have hch2 := (List.chain'_cons'.1 hch).2
    have hch1 := (List.chain'_cons'.1 hch).1
    by_cases hd : pyIsSpace d = true
    · have hde : d = ' ' := hcs d (List.mem_cons_self d rest) hd
      rw [if_pos hd, if_neg (by simp)]
      have hhead : ∀ c, rest.head? = some c → pyIsSpace c = false := by
        intro c hc
        by_contra hcon
        have hsp : pyIsSpace c = true := by
          revert hcon
          cases pyIsSpace c <;> simp
        have hce : c = ' ' :=
          hcs c (List.mem_cons_of_mem d (List.mem_of_mem_head? hc)) hsp
        exact hch1 c hc ⟨hde, hce⟩
      rw [collapseAux_true_eq_false rest hhead,
        ih (fun c hc => hcs c (List.mem_cons_of_mem d hc)) hch2, hde]
    · rw [if_neg hd, ih (fun c hc => hcs c (List.mem_cons_of_mem d hc)) hch2]

/-- The head of a dropWhile result does not satisfy the predicate. -/
theorem head_dropWhile_not :
    ∀ (l : List Char) (c : Char),
      (l.dropWhile pyIsSpace).head? = some c → pyIsSpace c = false := by
  intro l
  induction l with
  | nil =>
    intro c hc
    simp at hc
  | cons d rest ih =>
    intro c hc
    by_cases hd : pyIsSpace d = true
    · rw [List.dropWhile_cons_of_pos hd] at hc
      exact ih c hc
    · rw [List.dropWhile_cons_of_neg (by simpa using hd)] at hc
      simp only [List.head?_cons, Option.some.injEq] at hc
      rw [← hc]
      simpa using hd

/-- dropWhile is the identity when the head already fails the predicate. -/
theorem dropWhile_eq_self_of_head (l : List Char)
    (h : ∀ c, l.head? = some c → pyIsSpace c = false) :
    l.dropWhile pyIsSpace = l := by
  match l with
  | [] => rfl
  | d :: rest =>
    exact List.dropWhile_cons_of_neg (by simp [h d rfl])

/-- The stripped string does not start with whitespace. -/
theorem pyStrip_head (l : List Char) :
    ∀ c, (pyStrip l).head? = some c → pyIsSpace c = false := by
  intro c hc
  rw [pyStrip, List.head?_reverse] at hc
  obtain ⟨t, ht⟩ :=
    List.dropWhile_suffix (l := (l.dropWhile pyIsSpace).reverse) pyIsSpace
  have h1 : (t ++ (l.dropWhile pyIsSpace).reverse.dropWhile pyIsSpace).getLast? =
      some c := by
    rw [List.getLast?_append, hc]
    rfl
  rw [ht, List.getLast?_reverse] at h1
  exact head_dropWhile_not l c h1

/-- The stripped string does not end in whitespace. -/
theorem pyStrip_getLast (l : List Char) :
    ∀ c, (pyStrip l).getLast? = some c → pyIsSpace c = false := by
  intro c hc
  rw [pyStrip, List.getLast?_reverse] at hc
  exact head_dropWhile_not _ c hc

/-- Stripping is the identity when neither end is whitespace. -/
theorem pyStrip_eq_self (l : List Char)
    (hh : ∀ c, l.head? = some c → pyIsSpace c = false)
    (hl : ∀ c, l.getLast? = some c → pyIsSpace c = false) :
    pyStrip l = l := by
  rw [pyStrip, dropWhile_eq_self_of_head l hh, dropWhile_eq_self_of_head _ (by
    intro c hc
    rw [List.head?_reverse] at hc
    exact hl c hc), List.reverse_reverse]

/-- Characters of the stripped string come from the string. -/
theorem mem_pyStrip (l : List Char) (c : Char) (h : c ∈ pyStrip l) : c ∈ l := by
  rw [pyStrip, List.mem_reverse] at h
  have h2 := List.dropWhile_subset (l := (l.dropWhile pyIsSpace).reverse) pyIsSpace h
  rw [List.mem_reverse] at h2
  exact List.dropWhile_subset pyIsSpace h2

/-- The no-two-spaces chain survives stripping. -/
theorem chain_pyStrip (l : List Char)
    (h : List.Chain' (fun a b => ¬(a = ' ' ∧ b = ' ')) l) :
    List.Chain' (fun a b => ¬(a = ' ' ∧ b = ' ')) (pyStrip l) := by
  have hrev : ∀ x : List Char,
      List.Chain' (fun a b => ¬(a = ' ' ∧ b = ' ')) x →
      List.Chain' (fun a b => ¬(a = ' ' ∧ b = ' ')) x.reverse := by
    intro x hx
    rw [List.chain'_reverse]
    exact List.Chain'.imp (fun a b hab hc => hab ⟨hc.2, hc.1⟩) hx
  exact hrev _ ((hrev _ ((h.suffix (List.dropWhile_suffix pyIsSpace)))).suffix
    (List.dropWhile_suffix pyIsSpace))

end CleanTextFacts

section CleanTextIdemFacts

/-- Characters of the allowed output alphabet are fixed by lowercasing. -/
theorem toLower_eq_self_of_allowed (keepDigits : Bool) (c : Char)
    (h : allowedChar keepDigits c = true ∨ c = ' ') : Char.toLower c = c := by
  apply toLower_fix
  rcases h with h | h
  · rw [allowedChar_iff] at h
    omega
  · rw [h, show (' ').toNat = 32 from rfl]
    omega

/-- Mapping a function that fixes every element is the identity. -/
theorem map_toLower_eq_self (l : List Char)
    (h : ∀ c ∈ l, Char.toLower c = c) : l.map Char.toLower = l := by
  induction l with
  | nil => rfl
  | cons c rest ih =>
    rw [List.map_cons, h c (List.mem_cons_self c rest),
      ih (fun d hd => h d (List.mem_cons_of_mem c hd))]

end CleanTextIdemFacts

/-- Claim C8: for every input string the normalizer output contains only
characters of the allowed set (lowercase letters, digits when the variant
keeps them, single spaces as separators), never two consecutive spaces and
no leading or trailing whitespace; and normalization is idempotent. -/
theorem clean_text_spec (keepDigits : Bool) (s : List Char) :
    (∀ c ∈ clean_text keepDigits s, allowedChar keepDigits c = true ∨ c = ' ') ∧
    List.Chain' (fun a b => ¬(a = ' ' ∧ b = ' ')) (clean_text keepDigits s) ∧
    (∀ c, (clean_text keepDigits s).head? = some c → pyIsSpace c = false) ∧
    (∀ c, (clean_text keepDigits s).getLast? = some c → pyIsSpace c = false) ∧
    clean_text keepDigits (clean_text keepDigits s) = clean_text keepDigits s := by
  have hcharset : ∀ c ∈ clean_text keepDigits s,
      allowedChar keepDigits c = true ∨ c = ' ' := by
    intro c hc
    have h1 := mem_pyStrip _ c hc
    rcases mem_collapseAux _ false c h1 with h | ⟨hm, hs⟩
    · exact Or.inr h
    · have hpred := (List.mem_filter.1 hm).2
      left
      revert hpred
      simp [hs]
  have hchain : List.Chain' (fun a b => ¬(a = ' ' ∧ b = ' '))
      (clean_text keepDigits s) :=
    chain_pyStrip _ (chain_collapseAux _ false)
  have hhead : ∀ c, (clean_text keepDigits s).head? = some c →
      pyIsSpace c = false := pyStrip_head _
  have hlast : ∀ c, (clean_text keepDigits s).getLast? = some c →
      pyIsSpace c = false := pyStrip_getLast _
  refine ⟨hcharset, hchain, hhead, hlast, ?_⟩
  have h1 : (clean_text keepDigits s).map Char.toLower = clean_text keepDigits s :=
    map_toLower_eq_self _ (fun c hc => toLower_eq_self_of_allowed keepDigits c
      (hcharset c hc))
  have h2 : (clean_text keepDigits s).filter
      (fun c => allowedChar keepDigits c || pyIsSpace c) = clean_text keepDigits s := by
    rw [List.filter_eq_self]
    intro c hc
    rcases hcharset c hc with h | h
    · simp [h]
    · rw [h]
      have hsp : pyIsSpace ' ' = true := by decide
      simp [hsp]
  have hspace : ∀ c ∈ clean_text keepDigits s, pyIsSpace c = true → c = ' ' := by
    intro c hc hsp
    rcases hcharset c hc with h | h
    · exfalso
      rw [allowedChar_iff] at h
      rw [pyIsSpace_iff] at hsp
      omega
    · exact h
  have h3 : collapseAux false (clean_text keepDigits s) = clean_text keepDigits s :=
    collapseAux_eq_self _ hspace hchain
  have h4 : pyStrip (clean_text keepDigits s) = clean_text keepDigits s :=
    pyStrip_eq_self _ hhead hlast
  show pyStrip (collapseAux false (((clean_text keepDigits s).map Char.toLower).filter
    (fun c => allowedChar keepDigits c || pyIsSpace c))) = clean_text keepDigits s
  rw [h1, h2, h3, h4]

/-- Witness instantiating the normalizer claim on a concrete mixed string
with an uppercase letter, punctuation and doubled spaces. -/
theorem clean_text_spec_witness :
    (allowedChar true 'h' = true ∨ 'h' = ' ') ∧
    pyIsSpace 'h' = false ∧
    clean_text true (clean_text true ('H' :: 'i' :: '!' :: ' ' :: ' ' :: 'a' :: [])) =
      clean_text true ('H' :: 'i' :: '!' :: ' ' :: ' ' :: 'a' :: []) := by
  have h := clean_text_spec true ('H' :: 'i' :: '!' :: ' ' :: ' ' :: 'a' :: [])
  exact ⟨h.1 'h' (by decide), h.2.2.1 'h' (by decide), h.2.2.2.2⟩

end PoemFrank
